import Mathlib

/-!
Verification development for the change-application engine of the `aidx` CLI
(`runApply` in the v1.0.6 source, equivalently the `apply` command action in
`src/index.ts` v1.0.1).

Strings are modelled as `List Char`.  The two directive-extraction regexes

  fileRegex   = /<file\s+path=["'](.*?)["']\s*>([\s\S]*?)<\/file>/gi
  deleteRegex = /<delete\s+path=["'](.*?)["']\s*\/>/gi

are embedded as explicit backtracking scanners (`matchFileAt`,
`matchDeleteAt`) together with the global `exec`-loop semantics
(`scanFile`, `scanDelete`): at each position the engine tries the pattern;
a successful match is consumed whole, otherwise scanning advances one
character.  Non-greedy captures (`(.*?)`, `([\s\S]*?)`) are modelled by
`nong`, which tries the continuation first and extends the capture only on
failure — exactly the leftmost/shortest-first semantics of the JS engine.
The `i` flag is modelled by ASCII case-insensitive literal comparison
(`ciEqA`); `.` excludes line terminators (`isDot`); `\s` is modelled by the
ASCII whitespace set.

The filesystem is an association list from paths to contents inside a
`World` that also carries failure-injection tables for the five `fs` calls
the apply loop makes (`mkdir`, `copyFile`, `writeFile`, `unlink`,
`readFile`), so that per-directive error handling can be stated.
-/

namespace Aidx

abbrev Str := List Char

/-- Bridge from Lean string literals to the `List Char` representation. -/
def s2l (s : String) : Str := s.data

/-- The single-quote character (the regexes accept `"` or `'` around paths). -/
def sq : Char := Char.ofNat 39

/-- The backtick character, head of the markdown fence markers. -/
def tick : Char := Char.ofNat 96

/-- JS `\s` for the characters that occur in practice (ASCII whitespace and
line terminators); also the character class removed by `String.trim`. -/
def isWs (c : Char) : Bool :=
  c == ' ' || c == '\t' || c == '\n' || c == '\r' ||
    decide (c.toNat = 11) || decide (c.toNat = 12)

/-- Greedy `\s*`: in both regexes `\s*` is followed by a non-whitespace
literal, so maximal-munch without backtracking is exact. -/
def dropWs (cs : Str) : Str := cs.dropWhile isWs

/-- JS `.` without the `s` flag: any char except `\n`, `\r`, U+2028, U+2029. -/
def isDot (c : Char) : Bool :=
  !(c == '\n' || c == '\r' || decide (c.toNat = 8232) || decide (c.toNat = 8233))

/-- The character class `["']`. -/
def isQuote (c : Char) : Bool := c == '"' || c == sq

/-- ASCII case-insensitive comparison of a (lowercase or symbol) pattern
character `a` against an input character `c`, modelling the `i` regex flag
on the ASCII literals of the two patterns. -/
def ciEqA (a c : Char) : Bool :=
  a == c || (decide (65 ≤ c.toNat) && decide (c.toNat ≤ 90) && decide (a.toNat = c.toNat + 32))

/-- Match a literal pattern case-insensitively, returning the rest of the
input. -/
def matchLit : Str → Str → Option Str
  | [], cs => some cs
  | _ :: _, [] => none
  | p :: ps, c :: cs => if ciEqA p c then matchLit ps cs else none

/-- Match a literal pattern case-sensitively (used by `String.replace` for
the fence markers), returning the rest of the input. -/
def matchExact : Str → Str → Option Str
  | [], cs => some cs
  | _ :: _, [] => none
  | p :: ps, c :: cs => if p = c then matchExact ps cs else none

/-- `\s+` followed by a non-whitespace literal: require one whitespace
character, then munch the rest of the run. -/
def ws1 : Str → Option Str
  | [] => none
  | c :: rest => if isWs c then some (dropWs rest) else none

/-- One character of the class `["']`. -/
def quoteStep : Str → Option Str
  | [] => none
  | c :: rest => if isQuote c then some rest else none

/-- Non-greedy capture: try the continuation at the current position first;
only if it fails (and the next character is admissible for the class) extend
the capture by one character.  This is the JS lazy-quantifier strategy. -/
def nong {α : Type} (valid : Char → Bool) (cont : Str → Option α) : Str → Option (Str × α)
  | [] =>
    match cont [] with
    | some a => some ([], a)
    | none => none
  | c :: rest =>
    match cont (c :: rest) with
    | some a => some ([], a)
    | none =>
      if valid c then
        match nong valid cont rest with
        | some pa => some (c :: pa.1, pa.2)
        | none => none
      else none

/-- The literal `<file`. -/
def tagFile : Str := '<' :: 'f' :: 'i' :: 'l' :: 'e' :: []

/-- The literal `<delete`. -/
def tagDelete : Str := '<' :: 'd' :: 'e' :: 'l' :: 'e' :: 't' :: 'e' :: []

/-- The literal `path=`. -/
def litPathEq : Str := 'p' :: 'a' :: 't' :: 'h' :: '=' :: []

/-- The literal `</file>`. -/
def tagCloseFile : Str := '<' :: '/' :: 'f' :: 'i' :: 'l' :: 'e' :: '>' :: []

/-- Continuation after the path capture of a `<file …>` tag: closing quote,
`\s*`, `>`, then the non-greedy content capture up to the first `</file>`.
Returns (content, rest-of-input). -/
def contFile : Str → Option (Str × Str)
  | [] => none
  | q :: r5 =>
    if isQuote q then
      match dropWs r5 with
      | [] => none
      | g :: r6 =>
        if g = '>' then nong (fun _ => true) (matchLit tagCloseFile) r6
        else none
    else none

/-- Continuation after the path capture of a `<delete … />` tag: closing
quote, `\s*`, `/`, `>`.  Returns the rest of the input. -/
def contDelete : Str → Option Str
  | [] => none
  | q :: r5 =>
    if isQuote q then
      match dropWs r5 with
      | sl :: g :: r6 => if sl = '/' then (if g = '>' then some r6 else none) else none
      | _ => none
    else none

/-- Attempt the full `fileRegex` at the current position.  On success
returns (path capture, content capture, rest of input after the match). -/
def matchFileAt (cs : Str) : Option (Str × Str × Str) :=
  (matchLit tagFile cs).bind fun r1 =>
  (ws1 r1).bind fun r2 =>
  (matchLit litPathEq r2).bind fun r3 =>
  (quoteStep r3).bind fun r4 =>
  (nong isDot contFile r4).bind fun t => some (t.1, t.2.1, t.2.2)

/-- Attempt the full `deleteRegex` at the current position.  On success
returns (path capture, rest of input after the match). -/
def matchDeleteAt (cs : Str) : Option (Str × Str) :=
  (matchLit tagDelete cs).bind fun r1 =>
  (ws1 r1).bind fun r2 =>
  (matchLit litPathEq r2).bind fun r3 =>
  (quoteStep r3).bind fun r4 =>
  (nong isDot contDelete r4).bind fun t => some (t.1, t.2)

/-- Global `exec` loop for the file regex, fuelled by the input length
(every match consumes at least one character, so `cs.length` steps always
suffice; adequacy is proved below). -/
def scanFileF : Nat → Str → List (Str × Str)
  | 0, _ => []
  | fuel + 1, cs =>
    match matchFileAt cs with
    | some (p, b, rest) => (p, b) :: scanFileF fuel rest
    | none =>
      match cs with
      | [] => []
      | _ :: rest => scanFileF fuel rest

/-- All matches of the file regex, in document order. -/
def scanFile (cs : Str) : List (Str × Str) := scanFileF cs.length cs

/-- Global `exec` loop for the delete regex. -/
def scanDeleteF : Nat → Str → List Str
  | 0, _ => []
  | fuel + 1, cs =>
    match matchDeleteAt cs with
    | some (p, rest) => p :: scanDeleteF fuel rest
    | none =>
      match cs with
      | [] => []
      | _ :: rest => scanDeleteF fuel rest

/-- All matches of the delete regex, in document order. -/
def scanDelete (cs : Str) : List Str := scanDeleteF cs.length cs

/-- One pass of `String.replace(pattern, '')` with a global regex made of
literal characters: scan left to right, remove every (non-overlapping)
occurrence, continue after the removed occurrence. -/
def stripAllF (pat : Str) : Nat → Str → Str
  | 0, cs => cs
  | fuel + 1, cs =>
    match cs with
    | [] => []
    | c :: rest =>
      match matchExact pat (c :: rest) with
      | some remainder => stripAllF pat fuel remainder
      | none => c :: stripAllF pat fuel rest

/-- Remove all occurrences of a (nonempty) literal pattern. -/
def stripAll (pat cs : Str) : Str :=
  match pat with
  | [] => cs
  | _ :: _ => stripAllF pat cs.length cs

/-- The literal ```` ```xml ````. -/
def fenceXml : Str := tick :: tick :: tick :: 'x' :: 'm' :: 'l' :: []

/-- The literal ```` ``` ````. -/
def fence3 : Str := tick :: tick :: tick :: []

/-- `content.replace(/```xml/g, '').replace(/```/g, '')` — the fence
stripping applied to the whole clipboard text before scanning. -/
def cleanContent (cs : Str) : Str := stripAll fence3 (stripAll fenceXml cs)

/-- JS `String.prototype.trim` on the modelled character set. -/
def jsTrim (cs : Str) : Str := ((cs.dropWhile isWs).reverse.dropWhile isWs).reverse

/-- A change directive: `{type:'write', path, content}` or
`{type:'delete', path}`. -/
inductive Update where
  | write (path : Str) (content : Str)
  | delete (path : Str)
deriving DecidableEq, Repr

/-- The extractor: strip fences, then push all file-regex matches (content
trimmed), then all delete-regex matches — the two `while (exec)` loops of
`runApply`. -/
def extractUpdates (raw : Str) : List Update :=
  (scanFile (cleanContent raw)).map (fun pb => Update.write pb.1 (jsTrim pb.2))
    ++ (scanDelete (cleanContent raw)).map Update.delete

/-- The concrete text `<file path="P">B</file>` (double quotes, single
space, no whitespace padding). -/
def renderFile (p b : Str) : Str :=
  tagFile ++ ' ' :: litPathEq ++ '"' :: p ++ '"' :: '>' :: b ++ tagCloseFile

/-- The concrete text `<delete path="P"/>`. -/
def renderDelete (p : Str) : Str :=
  tagDelete ++ ' ' :: litPathEq ++ '"' :: p ++ '"' :: '/' :: '>' :: []

/-- One item of a source document: a well-formed write tag, a well-formed
delete tag, or inert surrounding prose. -/
inductive Item where
  | fileTag (p b : Str)
  | deleteTag (p : Str)
  | prose (s : Str)

/-- Render one item to text. -/
def renderItem : Item → Str
  | .fileTag p b => renderFile p b
  | .deleteTag p => renderDelete p
  | .prose s => s

/-- Render a document: the concatenation of its items, i.e. an arbitrary
interleaving of write tags, delete tags and prose. -/
def renderDoc (items : List Item) : Str := (items.map renderItem).flatten

/-- Admissible path characters: what the capture `["'](.*?)["']` can hold
in a straightforwardly well-formed tag — no quotes (they close the
capture), no line terminators (excluded by `.`), no `<` (so surrounding
scans cannot start a match inside), no backtick (so fence stripping leaves
the document unchanged). -/
def okPathChar (c : Char) : Prop :=
  c ≠ '"' ∧ c ≠ sq ∧ c ≠ '\n' ∧ c ≠ '\r' ∧
    c.toNat ≠ 8232 ∧ c.toNat ≠ 8233 ∧ c ≠ '<' ∧ c ≠ tick

instance (c : Char) : Decidable (okPathChar c) := by
  unfold okPathChar; infer_instance

/-- Admissible body characters: anything without `<` (content capture stops
at the first `</file>`) and without backticks (fence stripping). -/
def okBodyChar (c : Char) : Prop := c ≠ '<' ∧ c ≠ tick

instance (c : Char) : Decidable (okBodyChar c) := by
  unfold okBodyChar; infer_instance

/-- Well-formedness of a document item. -/
def okItem : Item → Prop
  | .fileTag p b => (∀ c ∈ p, okPathChar c) ∧ (∀ c ∈ b, okBodyChar c)
  | .deleteTag p => ∀ c ∈ p, okPathChar c
  | .prose s => ∀ c ∈ s, okBodyChar c

instance (i : Item) : Decidable (okItem i) := by
  cases i <;> (unfold okItem; infer_instance)

/-- The write tags of a document, in document order. -/
def itemWrites : List Item → List (Str × Str)
  | [] => []
  | .fileTag p b :: t => (p, b) :: itemWrites t
  | _ :: t => itemWrites t

/-- The delete tags of a document, in document order. -/
def itemDeletes : List Item → List Str
  | [] => []
  | .deleteTag p :: t => p :: itemDeletes t
  | _ :: t => itemDeletes t

/-- A node-style error: a `code` (e.g. `ENOENT`) and a human-readable
`message` (what the apply loop prints as the cause). -/
structure Err where
  code : Str
  message : Str
deriving DecidableEq, Repr

/-- The filesystem state, plus failure-injection tables for the `fs` calls
the apply loop makes.  `files` maps a path to its content.  An entry
`(p, m)` in a `fail…` table makes the corresponding call on `p` throw a
non-`ENOENT` error with message `m` (permissions, disk pressure, …);
`failMkdir` is keyed by the file path whose parent-directory creation
fails.  Directive paths are used as keys directly: `path.resolve(cwd, ·)`
is a fixed injective renaming within one run and is modelled as the
identity. -/
structure World where
  files : List (Str × Str)
  failMkdir : List (Str × Str)
  failCopy : List (Str × Str)
  failWrite : List (Str × Str)
  failUnlink : List (Str × Str)
deriving DecidableEq, Repr

/-- First-match association-list lookup. -/
def findVal (p : Str) : List (Str × Str) → Option Str
  | [] => none
  | (q, v) :: t => if q = p then some v else findVal p t

/-- Set (create or full overwrite) the binding of a path. -/
def setFile (l : List (Str × Str)) (p c : Str) : List (Str × Str) :=
  match l with
  | [] => [(p, c)]
  | (q, d) :: t => if q = p then (p, c) :: t else (q, d) :: setFile t p c

/-- Remove the binding of a path. -/
def delFile (l : List (Str × Str)) (p : Str) : List (Str × Str) :=
  match l with
  | [] => []
  | (q, d) :: t => if q = p then t else (q, d) :: delFile t p

/-- The `ENOENT` error thrown for a missing path. -/
def enoent : Err := ⟨s2l "ENOENT", s2l "ENOENT: no such file or directory"⟩

/-- `fs.readFile(p, 'utf-8')` as used by the preview: `some` content when
the path exists, `none` when reading fails (the catch prints NEW FILE). -/
def fsRead (w : World) (p : Str) : Option Str := findVal p w.files

/-- `fs.mkdir(path.dirname(p), { recursive: true })`: always succeeds
unless a failure is injected for `p`'s parent chain. -/
def fsMkdirp (w : World) (p : Str) : Except Err World :=
  match findVal p w.failMkdir with
  | some m => .error ⟨s2l "EACCES", m⟩
  | none => .ok w

/-- `fs.writeFile(p, c)`: full overwrite, creating the file if absent. -/
def fsWrite (w : World) (p c : Str) : Except Err World :=
  match findVal p w.failWrite with
  | some m => .error ⟨s2l "EACCES", m⟩
  | none => .ok { w with files := setFile w.files p c }

/-- `fs.copyFile(src, dst)`: `ENOENT` when the source is missing,
otherwise copy the current bytes (overwriting `dst`). -/
def fsCopy (w : World) (src dst : Str) : Except Err World :=
  match fsRead w src with
  | none => .error enoent
  | some c =>
    match findVal dst w.failCopy with
    | some m => .error ⟨s2l "EACCES", m⟩
    | none => .ok { w with files := setFile w.files dst c }

/-- `fs.unlink(p)`: `ENOENT` when the path is missing, an injected
non-`ENOENT` error if configured, otherwise remove the file. -/
def fsUnlink (w : World) (p : Str) : Except Err World :=
  match fsRead w p with
  | none => .error enoent
  | some _ =>
    match findVal p w.failUnlink with
    | some m => .error ⟨s2l "EPERM", m⟩
    | none => .ok { w with files := delFile w.files p }

/-- The backup sibling: `` `${targetPath}.bak` ``. -/
def bakPath (p : Str) : Str := p ++ s2l ".bak"

/-- Observable output events of one `apply` invocation, in print order. -/
inductive Ev where
  | noTags
  | found (n : Nat)
  | header (p : Str)
  | deleteMark
  | newFile (p : Str)
  | addHunk (v : Str)
  | removeHunk (v : Str)
  | truncated
  | aborted
  | backupSaved
  | deleted (p : Str)
  | wrote (p : Str)
  | errorEv (p : Str) (msg : Str)
  | skippedDelete (p : Str)
  | done
deriving DecidableEq, Repr

/-- One element of the array returned by `Diff.diffLines`: a maximal run of
consecutive lines classified added, removed or unchanged; `value` is the
concatenated text of the run. -/
structure Part where
  added : Bool
  removed : Bool
  value : Str
deriving DecidableEq, Repr

/-- One step of the preview's `changes.forEach` loop: `count` hunks have
been rendered so far; once `count > 50` every further part is skipped;
added parts render `+`-prefixed, removed parts `-`-prefixed, unchanged
parts render nothing and do not count. -/
def renderStep (acc : List Ev × Nat) (part : Part) : List Ev × Nat :=
  if 50 < acc.2 then acc
  else if part.added then (acc.1 ++ [Ev.addHunk part.value], acc.2 + 1)
  else if part.removed then (acc.1 ++ [Ev.removeHunk part.value], acc.2 + 1)
  else acc

/-- The rendered diff for one file: the `forEach` loop followed by the
truncation marker `...` printed exactly when `count > 50`. -/
def renderParts (parts : List Part) : List Ev :=
  (parts.foldl renderStep ([], 0)).1
    ++ (if 50 < (parts.foldl renderStep ([], 0)).2 then [Ev.truncated] else [])

/-- Split text into lines, each line keeping its terminating newline (the
tokenization used by the line-level diff). -/
def splitLinesAux (acc : Str) : Str → List Str
  | [] => if acc = [] then [] else [acc.reverse]
  | c :: rest =>
    if c = '\n' then (acc.reverse ++ ['\n']) :: splitLinesAux [] rest
    else splitLinesAux (c :: acc) rest

/-- Split text into lines. -/
def splitLines (cs : Str) : List Str := splitLinesAux [] cs

/-- Maximal run of pairwise-differing line heads, used to group a
substitution block into one removed run and one added run. -/
def splitNeq : List Str → List Str → (List Str × List Str × List Str × List Str)
  | x :: xs, y :: ys =>
    if x ≠ y then
      match splitNeq xs ys with
      | (r, a, rx, ry) => (x :: r, y :: a, rx, ry)
    else ([], [], x :: xs, y :: ys)
  | xs, ys => ([], [], xs, ys)

/-- Modelled from the spec: the line diff is computed by the external
`diff` npm package (`Diff.diffLines`), which is not part of this
repository.  Per spec §3/§4.2 it compares the two contents line by line
and yields maximal runs of consecutive `added`/`removed`/`unchanged`
lines in original document order.  This executable model classifies
matching heads as unchanged (merging consecutive unchanged lines) and
groups each substitution block into one removed run followed by one added
run; a leftover side becomes a single trailing removed/added run.  Fuel is
the total line count, which the recursion never exceeds. -/
def diffPartsF : Nat → List Str → List Str → List Part
  | 0, _, _ => []
  | _ + 1, [], [] => []
  | _ + 1, [], y :: ys => [⟨true, false, (y :: ys).flatten⟩]
  | _ + 1, x :: xs, [] => [⟨false, true, (x :: xs).flatten⟩]
  | fuel + 1, x :: xs, y :: ys =>
    if x = y then
      match diffPartsF fuel xs ys with
      | ⟨false, false, v⟩ :: t => ⟨false, false, x ++ v⟩ :: t
      | parts => ⟨false, false, x⟩ :: parts
    else
      match splitNeq (x :: xs) (y :: ys) with
      | (r, a, rx, ry) =>
        ⟨false, true, r.flatten⟩ :: ⟨true, false, a.flatten⟩ :: diffPartsF fuel rx ry

/-- Modelled from the spec: `Diff.diffLines(oldContent, newContent)`. -/
def diffLines (oldC newC : Str) : List Part :=
  let xs := splitLines oldC
  let ys := splitLines newC
  diffPartsF (xs.length + ys.length + 1) xs ys

/-- The preview's diff rendering for one existing file. -/
def renderDiff (oldC newC : Str) : List Ev := renderParts (diffLines oldC newC)

/-- The preview pass for one directive (read-only): the path banner, then
`[DELETE]` for deletes; for writes, `[NEW FILE]` when the read fails, and
the diff only when the old content is truthy (a non-empty string). -/
def previewUpdate (w : World) (u : Update) : List Ev :=
  match u with
  | .delete p => [Ev.header p, Ev.deleteMark]
  | .write p c =>
    Ev.header p ::
      match fsRead w p with
      | none => [Ev.newFile p]
      | some oldC => if oldC ≠ [] then renderDiff oldC c else []

/-- The apply phase for one directive (v1.0.6 `runApply`, identical in
structure to v1.0.1):

* delete — optional backup `copyFile` in its own try/catch (failure
  swallowed), then `unlink` in its own try/catch (failure swallowed, so a
  missing target or a permission error produces no output at all);
* write — `mkdir -p` on the parent (outer catch reports path and message),
  optional backup `copyFile` in its own try/catch (success logs
  `(Backup saved)`, failure swallowed), then `writeFile` (outer catch
  reports path and message). -/
def applyUpdate (backups : Bool) (w : World) (u : Update) : World × List Ev :=
  match u with
  | .delete p =>
    let w1 :=
      if backups then
        match fsCopy w p (bakPath p) with
        | .ok w' => w'
        | .error _ => w
      else w
    match fsUnlink w1 p with
    | .ok w2 => (w2, [Ev.deleted p])
    | .error _ => (w1, [])
  | .write p c =>
    match fsMkdirp w p with
    | .error e => (w, [Ev.errorEv p e.message])
    | .ok w1 =>
      let r2 :=
        if backups then
          match fsCopy w1 p (bakPath p) with
          | .ok w' => (w', [Ev.backupSaved])
          | .error _ => (w1, [])
        else (w1, [])
      match fsWrite r2.1 p c with
      | .error e => (r2.1, r2.2 ++ [Ev.errorEv p e.message])
      | .ok w3 => (w3, r2.2 ++ [Ev.wrote p])

/-- The delete branch of the v1.0.0 `apply` action (lines 305–325 of the
first source snapshot), which — unlike v1.0.1/v1.0.6 — distinguishes
`ENOENT`: a missing target is reported as a skipped delete, and any other
error propagates to the outer catch and is reported with path and cause. -/
def applyDelete100 (backups : Bool) (w : World) (p : Str) : World × List Ev :=
  match fsRead w p with
  | none => (w, [Ev.skippedDelete p])
  | some _ =>
    let step := if backups then fsCopy w p (bakPath p) else .ok w
    match step with
    | .error e =>
      if e.code = enoent.code then (w, [Ev.skippedDelete p])
      else (w, [Ev.errorEv p e.message])
    | .ok w1 =>
      let evs := if backups then [Ev.backupSaved] else []
      match fsUnlink w1 p with
      | .ok w2 => (w2, evs ++ [Ev.deleted p])
      | .error e =>
        if e.code = enoent.code then (w1, evs ++ [Ev.skippedDelete p])
        else (w1, evs ++ [Ev.errorEv p e.message])

/-- The apply loop: every directive is processed in order, each one's
events collected in its own group; there is no early exit. -/
def applyAllG (backups : Bool) (w : World) : List Update → World × List (List Ev)
  | [] => (w, [])
  | u :: us =>
    let r1 := applyUpdate backups w u
    let r2 := applyAllG backups r1.1 us
    (r2.1, r1.2 :: r2.2)

/-- One full `apply` invocation.  `conf` is the confirmation gate:
`some true` = operator confirmed, `some false` = operator declined
(prints `Aborted.`), `none` = the prompt itself threw (the catch just
returns).  The backup flag is resolved once, before anything else.
Returns the final world and the ordered console events. -/
def runApply (clip : Str) (backups : Bool) (conf : Option Bool) (w : World) :
    World × List Ev :=
  let updates := extractUpdates clip
  if updates = [] then (w, [Ev.noTags])
  else
    let pre := Ev.found updates.length :: (updates.map (previewUpdate w)).flatten
    match conf with
    | none => (w, pre)
    | some false => (w, pre ++ [Ev.aborted])
    | some true =>
      let r := applyAllG backups w updates
      (r.1, pre ++ r.2.flatten ++ [Ev.done])

/-- Is an event a rendered added/removed hunk? -/
def isHunk : Ev → Bool
  | .addHunk _ => true
  | .removeHunk _ => true
  | _ => false

/-- Number of added/removed hunks rendered in an event list. -/
def hunkCount (evs : List Ev) : Nat := (evs.filter isHunk).length

/-- Number of added-or-removed parts in a diff result. -/
def arCount (parts : List Part) : Nat :=
  (parts.filter (fun q => q.added || q.removed)).length

/-- The empty world: no files, no injected failures. -/
def w0 : World := ⟨[], [], [], [], []⟩

/-- The text `<file path="` — opening segment of a rendered write tag. -/
def fileTagPre : Str :=
  '<' :: 'f' :: 'i' :: 'l' :: 'e' :: ' ' :: 'p' :: 'a' :: 't' :: 'h' :: '=' :: '"' :: []

/-- The text `">` between the path and the body of a rendered write tag. -/
def midQuoteGt : Str := '"' :: '>' :: []

/-- The text `<delete path="` — opening segment of a rendered delete tag. -/
def delTagPre : Str :=
  '<' :: 'd' :: 'e' :: 'l' :: 'e' :: 't' :: 'e' :: ' ' :: 'p' :: 'a' :: 't' :: 'h' :: '=' :: '"' :: []

/-- The text `"/>` closing a rendered delete tag. -/
def delTagSuf : Str := '"' :: '/' :: '>' :: []

end Aidx

namespace Aidx

theorem renderFile_eq (p b : Str) :
    renderFile p b = fileTagPre ++ (p ++ (midQuoteGt ++ (b ++ tagCloseFile))) := by
  simp [renderFile, fileTagPre, midQuoteGt, tagFile, litPathEq]

theorem renderDelete_eq (p : Str) :
    renderDelete p = delTagPre ++ (p ++ delTagSuf) := by
  simp [renderDelete, delTagPre, delTagSuf, tagDelete, litPathEq]

theorem matchLit_len : ∀ {pat cs r : Str}, matchLit pat cs = some r →
    pat.length + r.length = cs.length := by
  intro pat
  induction pat with
  | nil => intro cs r h; simp [matchLit] at h; simp [h]
  | cons p ps ih =>
    intro cs r h
    cases cs with
    | nil => simp [matchLit] at h
    | cons c cs' =>
      simp only [matchLit] at h
      split at h
      · have := ih h
        simp [List.length_cons]
        omega
      · exact absurd h (by simp)

theorem matchExact_len : ∀ {pat cs r : Str}, matchExact pat cs = some r →
    pat.length + r.length = cs.length := by
  intro pat
  induction pat with
  | nil => intro cs r h; simp [matchExact] at h; simp [h]
  | cons p ps ih =>
    intro cs r h
    cases cs with
    | nil => simp [matchExact] at h
    | cons c cs' =>
      simp only [matchExact] at h
      split at h
      · have := ih h
        simp [List.length_cons]
        omega
      · exact absurd h (by simp)

theorem dropWs_length_le (cs : Str) : (dropWs cs).length ≤ cs.length := by
  induction cs with
  | nil => simp [dropWs]
  | cons c rest ih =>
    simp only [dropWs, List.dropWhile] at ih ⊢
    split
    · exact Nat.le_succ_of_le ih
    · simp

theorem ws1_lt {cs r : Str} (h : ws1 cs = some r) : r.length < cs.length := by
  cases cs with
  | nil => simp [ws1] at h
  | cons c rest =>
    simp only [ws1] at h
    split at h
    · cases h
      exact Nat.lt_succ_of_le (dropWs_length_le rest)
    · exact absurd h (by simp)

theorem quoteStep_len {cs r : Str} (h : quoteStep cs = some r) :
    r.length + 1 = cs.length := by
  cases cs with
  | nil => simp [quoteStep] at h
  | cons c rest =>
    simp only [quoteStep] at h
    split at h
    · cases h; simp
    · exact absurd h (by simp)

theorem nong_split {α : Type} {valid : Char → Bool} {cont : Str → Option α}
    {cs p : Str} {a : α} (h : nong valid cont cs = some (p, a)) :
    ∃ cs2, cs = p ++ cs2 ∧ cont cs2 = some a := by
  induction cs generalizing p with
  | nil =>
    simp only [nong] at h
    split at h
    · rename_i a' hc
      cases h
      exact ⟨[], rfl, hc⟩
    · exact absurd h (by simp)
  | cons c rest ih =>
    simp only [nong] at h
    split at h
    · rename_i a' hc
      cases h
      exact ⟨c :: rest, rfl, hc⟩
    · split at h
      · split at h
        · rename_i pa hn
          cases h
          obtain ⟨cs2, hsplit, hcont⟩ := ih hn
          exact ⟨cs2, by simp [hsplit], hcont⟩
        · exact absurd h (by simp)
      · exact absurd h (by simp)

theorem contFile_lt {cs b rest : Str} (h : contFile cs = some (b, rest)) :
    rest.length < cs.length := by
  cases cs with
  | nil => simp [contFile] at h
  | cons q r5 =>
    simp only [contFile] at h
    by_cases hq : isQuote q = true
    · rw [if_pos hq] at h
      rcases hd : dropWs r5 with _ | ⟨g, r6⟩ <;> simp only [hd] at h
      · exact absurd h (by simp)
      · by_cases hg : g = '>'
        · rw [if_pos hg] at h
          obtain ⟨cs2, hsplit, hcont⟩ := nong_split h
          have l7 := matchLit_len hcont
          have l8 : (g :: r6).length ≤ r5.length := by
            rw [← hd]; exact dropWs_length_le r5
          have l9 := congrArg List.length hsplit
          simp only [List.length_append] at l9
          simp only [tagCloseFile, List.length_cons, List.length_nil] at l7
          simp only [List.length_cons] at l8 ⊢
          omega
        · rw [if_neg hg] at h
          exact absurd h (by simp)
    · rw [if_neg hq] at h
      exact absurd h (by simp)

theorem contDelete_lt {cs rest : Str} (h : contDelete cs = some rest) :
    rest.length < cs.length := by
  cases cs with
  | nil => simp [contDelete] at h
  | cons q r5 =>
    simp only [contDelete] at h
    by_cases hq : isQuote q = true
    · rw [if_pos hq] at h
      rcases hd : dropWs r5 with _ | ⟨sl, _ | ⟨g, r6⟩⟩ <;> simp only [hd] at h
      · exact absurd h (by simp)
      · exact absurd h (by simp)
      · by_cases hsl : sl = '/'
        · rw [if_pos hsl] at h
          by_cases hg : g = '>'
          · rw [if_pos hg] at h
            have hrest : r6 = rest := by simpa using h
            subst hrest
            have l8 : (sl :: g :: r6).length ≤ r5.length := by
              rw [← hd]; exact dropWs_length_le r5
            simp only [List.length_cons] at l8 ⊢
            omega
          · rw [if_neg hg] at h
            exact absurd h (by simp)
        · rw [if_neg hsl] at h
          exact absurd h (by simp)
    · rw [if_neg hq] at h
      exact absurd h (by simp)

theorem matchFileAt_lt {cs p b rest : Str} (h : matchFileAt cs = some (p, b, rest)) :
    rest.length < cs.length := by
  simp only [matchFileAt, Option.bind_eq_some] at h
  obtain ⟨r1, h1, r2, h2, r3, h3, r4, h4, t, h5, heq⟩ := h
  have ht : t.2.2 = rest := by
    have := heq
    simp only [Option.some.injEq, Prod.mk.injEq] at this
    exact this.2.2
  obtain ⟨cs2, hsplit, hcont⟩ := nong_split (p := t.1) (a := t.2)
    (by rw [← h5])
  have l1 := matchLit_len h1
  have l2 := ws1_lt h2
  have l3 := matchLit_len h3
  have l4 := quoteStep_len h4
  have l5 : cs2.length ≤ r4.length := by
    have := congrArg List.length hsplit
    simp only [List.length_append] at this
    omega
  have l6 : t.2.2.length < cs2.length := contFile_lt (by rw [← hcont])
  rw [ht] at l6
  simp only [tagFile, litPathEq, List.length_cons, List.length_nil] at l1 l3
  omega

theorem matchDeleteAt_lt {cs p rest : Str} (h : matchDeleteAt cs = some (p, rest)) :
    rest.length < cs.length := by
  simp only [matchDeleteAt, Option.bind_eq_some] at h
  obtain ⟨r1, h1, r2, h2, r3, h3, r4, h4, t, h5, heq⟩ := h
  have ht : t.2 = rest := by
    have := heq
    simp only [Option.some.injEq, Prod.mk.injEq] at this
    exact this.2
  obtain ⟨cs2, hsplit, hcont⟩ := nong_split (p := t.1) (a := t.2)
    (by rw [← h5])
  have l1 := matchLit_len h1
  have l2 := ws1_lt h2
  have l3 := matchLit_len h3
  have l4 := quoteStep_len h4
  have l5 : cs2.length ≤ r4.length := by
    have := congrArg List.length hsplit
    simp only [List.length_append] at this
    omega
  have l6 : t.2.length < cs2.length := contDelete_lt (by rw [← hcont])
  rw [ht] at l6
  simp only [tagDelete, litPathEq, List.length_cons, List.length_nil] at l1 l3
  omega

theorem matchFileAt_nil : matchFileAt [] = none := rfl

theorem matchDeleteAt_nil : matchDeleteAt [] = none := rfl

theorem scanFileF_nil (fuel : Nat) : scanFileF fuel [] = [] := by
  cases fuel <;> rfl

theorem scanDeleteF_nil (fuel : Nat) : scanDeleteF fuel [] = [] := by
  cases fuel <;> rfl

theorem scanFileF_mono : ∀ (f1 f2 : Nat) (cs : Str), cs.length ≤ f1 → cs.length ≤ f2 →
    scanFileF f1 cs = scanFileF f2 cs := by
  intro f1
  induction f1 with
  | zero =>
    intro f2 cs h1 _
    have : cs = [] := List.length_eq_zero.mp (Nat.le_zero.mp h1)
    subst this
    rw [scanFileF_nil, scanFileF_nil]
  | succ f1 ih =>
    intro f2 cs h1 h2
    cases cs with
    | nil => rw [scanFileF_nil, scanFileF_nil]
    | cons c rest =>
      cases f2 with
      | zero => simp at h2
      | succ f2 =>
        simp only [scanFileF]
        rcases hm : matchFileAt (c :: rest) with _ | ⟨p, b, r⟩
        · exact ih f2 rest (by simp at h1; omega) (by simp at h2; omega)
        · have hlt := matchFileAt_lt hm
          simp only [List.length_cons] at hlt h1 h2
          exact congrArg (List.cons (p, b)) (ih f2 r (by omega) (by omega))

theorem scanDeleteF_mono : ∀ (f1 f2 : Nat) (cs : Str), cs.length ≤ f1 → cs.length ≤ f2 →
    scanDeleteF f1 cs = scanDeleteF f2 cs := by
  intro f1
  induction f1 with
  | zero =>
    intro f2 cs h1 _
    have : cs = [] := List.length_eq_zero.mp (Nat.le_zero.mp h1)
    subst this
    rw [scanDeleteF_nil, scanDeleteF_nil]
  | succ f1 ih =>
    intro f2 cs h1 h2
    cases cs with
    | nil => rw [scanDeleteF_nil, scanDeleteF_nil]
    | cons c rest =>
      cases f2 with
      | zero => simp at h2
      | succ f2 =>
        simp only [scanDeleteF]
        rcases hm : matchDeleteAt (c :: rest) with _ | ⟨p, r⟩
        · exact ih f2 rest (by simp at h1; omega) (by simp at h2; omega)
        · have hlt := matchDeleteAt_lt hm
          simp only [List.length_cons] at hlt h1 h2
          exact congrArg (List.cons p) (ih f2 r (by omega) (by omega))

theorem scanFile_nil : scanFile [] = [] := rfl

theorem scanFile_some {cs p b rest : Str} (h : matchFileAt cs = some (p, b, rest)) :
    scanFile cs = (p, b) :: scanFile rest := by
  have hlt := matchFileAt_lt h
  cases cs with
  | nil => rw [matchFileAt_nil] at h; cases h
  | cons c t =>
    show scanFileF (t.length + 1) (c :: t) = _
    simp only [scanFileF, h]
    simp only [List.length_cons] at hlt
    exact congrArg _ (scanFileF_mono t.length rest.length rest (by omega) (by omega))

theorem scanFile_cons_none {c : Char} {cs : Str} (h : matchFileAt (c :: cs) = none) :
    scanFile (c :: cs) = scanFile cs := by
  show scanFileF (cs.length + 1) (c :: cs) = _
  simp only [scanFileF, h]
  rfl

theorem scanDelete_nil : scanDelete [] = [] := rfl

theorem scanDelete_some {cs p rest : Str} (h : matchDeleteAt cs = some (p, rest)) :
    scanDelete cs = p :: scanDelete rest := by
  have hlt := matchDeleteAt_lt h
  cases cs with
  | nil => rw [matchDeleteAt_nil] at h; cases h
  | cons c t =>
    show scanDeleteF (t.length + 1) (c :: t) = _
    simp only [scanDeleteF, h]
    simp only [List.length_cons] at hlt
    exact congrArg _ (scanDeleteF_mono t.length rest.length rest (by omega) (by omega))

theorem scanDelete_cons_none {c : Char} {cs : Str} (h : matchDeleteAt (c :: cs) = none) :
    scanDelete (c :: cs) = scanDelete cs := by
  show scanDeleteF (cs.length + 1) (c :: cs) = _
  simp only [scanDeleteF, h]
  rfl

theorem ciEqA_self (c : Char) : ciEqA c c = true := by
  simp [ciEqA]

theorem ciEqA_lt_false {c : Char} (h : c ≠ '<') : ciEqA '<' c = false := by
  have h1 : ('<' == c) = false := beq_eq_false_iff_ne.mpr (Ne.symm h)
  by_cases h65 : 65 ≤ c.toNat
  · have h60 : ('<').toNat = 60 := rfl
    have : ¬(('<').toNat = c.toNat + 32) := by omega
    simp [ciEqA, h1, this]
    omega
  · simp [ciEqA, h1, h65]

theorem matchLit_self : ∀ (pat rest : Str), matchLit pat (pat ++ rest) = some rest := by
  intro pat
  induction pat with
  | nil => intro rest; rfl
  | cons p ps ih => intro rest; simp [matchLit, ciEqA_self, ih]

theorem matchFileAt_head_none {c : Char} {cs : Str} (h : c ≠ '<') :
    matchFileAt (c :: cs) = none := by
  have : matchLit tagFile (c :: cs) = none := by
    simp [matchLit, tagFile, ciEqA_lt_false h]
  simp [matchFileAt, this]

theorem matchDeleteAt_head_none {c : Char} {cs : Str} (h : c ≠ '<') :
    matchDeleteAt (c :: cs) = none := by
  have : matchLit tagDelete (c :: cs) = none := by
    simp [matchLit, tagDelete, ciEqA_lt_false h]
  simp [matchDeleteAt, this]

theorem matchFileAt_lt_d_none (t : Str) : matchFileAt ('<' :: 'd' :: t) = none := by
  have : matchLit tagFile ('<' :: 'd' :: t) = none := by
    simp only [tagFile, matchLit]
    rw [if_pos (ciEqA_self '<'), if_neg (by decide : ¬ciEqA 'f' 'd' = true)]
  simp [matchFileAt, this]

theorem matchDeleteAt_lt_f_none (t : Str) : matchDeleteAt ('<' :: 'f' :: t) = none := by
  have : matchLit tagDelete ('<' :: 'f' :: t) = none := by
    simp only [tagDelete, matchLit]
    rw [if_pos (ciEqA_self '<'), if_neg (by decide : ¬ciEqA 'd' 'f' = true)]
  simp [matchDeleteAt, this]

theorem matchDeleteAt_lt_slash_none (t : Str) : matchDeleteAt ('<' :: '/' :: t) = none := by
  have : matchLit tagDelete ('<' :: '/' :: t) = none := by
    simp only [tagDelete, matchLit]
    rw [if_pos (ciEqA_self '<'), if_neg (by decide : ¬ciEqA 'd' '/' = true)]
  simp [matchDeleteAt, this]

theorem scanFile_append_skip : ∀ {xs ys : Str}, (∀ c ∈ xs, c ≠ '<') →
    scanFile (xs ++ ys) = scanFile ys := by
  intro xs
  induction xs with
  | nil => intro ys _; rfl
  | cons c t ih =>
    intro ys h
    rw [List.cons_append,
      scanFile_cons_none (matchFileAt_head_none (h c (by simp)))]
    exact ih fun d hd => h d (by simp [hd])

theorem scanDelete_append_skip : ∀ {xs ys : Str}, (∀ c ∈ xs, c ≠ '<') →
    scanDelete (xs ++ ys) = scanDelete ys := by
  intro xs
  induction xs with
  | nil => intro ys _; rfl
  | cons c t ih =>
    intro ys h
    rw [List.cons_append,
      scanDelete_cons_none (matchDeleteAt_head_none (h c (by simp)))]
    exact ih fun d hd => h d (by simp [hd])

theorem okPathChar_ne_lt {c : Char} (h : okPathChar c) : c ≠ '<' :=
  h.2.2.2.2.2.2.1

theorem okPathChar_ne_tick {c : Char} (h : okPathChar c) : c ≠ tick :=
  h.2.2.2.2.2.2.2

theorem okPathChar_isDot {c : Char} (h : okPathChar c) : isDot c = true := by
  obtain ⟨h1, h2, h3, h4, h5, h6, h7, h8⟩ := h
  simp [isDot, h3, h4, h5, h6]

theorem okPathChar_notQuote {c : Char} (h : okPathChar c) : isQuote c = false := by
  obtain ⟨h1, h2, h3, h4, h5, h6, h7, h8⟩ := h
  simp [isQuote, h1, h2]

theorem okBodyChar_ne_lt {c : Char} (h : okBodyChar c) : c ≠ '<' := h.1

theorem okBodyChar_ne_tick {c : Char} (h : okBodyChar c) : c ≠ tick := h.2

theorem nong_exact {α : Type} (valid : Char → Bool) (cont : Str → Option α)
    (bad : Char → Prop) (hbad : ∀ c cs2, bad c → cont (c :: cs2) = none) :
    ∀ (p cs : Str) (a : α), (∀ c ∈ p, valid c = true ∧ bad c) → cont cs = some a →
    nong valid cont (p ++ cs) = some (p, a) := by
  intro p
  induction p with
  | nil =>
    intro cs a _ hc
    cases cs with
    | nil => simp [nong, hc]
    | cons c rest => simp [nong, hc]
  | cons c p2 ih =>
    intro cs a hp hc
    have hcp := hp c (by simp)
    show nong valid cont (c :: (p2 ++ cs)) = some (c :: p2, a)
    simp only [nong]
    rw [hbad c _ hcp.2, hcp.1]
    simp only [if_true]
    rw [ih cs a (fun d hd => hp d (by simp [hd])) hc]

theorem contFile_none_of_notQuote {c : Char} {cs : Str} (h : isQuote c = false) :
    contFile (c :: cs) = none := by
  simp [contFile, h]

theorem contDelete_none_of_notQuote {c : Char} {cs : Str} (h : isQuote c = false) :
    contDelete (c :: cs) = none := by
  simp [contDelete, h]

theorem matchLit_close_none {c : Char} {cs : Str} (h : c ≠ '<') :
    matchLit tagCloseFile (c :: cs) = none := by
  simp [matchLit, tagCloseFile, ciEqA_lt_false h]

theorem contFile_at (b rest : Str) (hb : ∀ c ∈ b, okBodyChar c) :
    contFile ('"' :: '>' :: (b ++ (tagCloseFile ++ rest))) = some (b, rest) := by
  have hq : isQuote '"' = true := by decide
  have hgt : dropWs ('>' :: (b ++ (tagCloseFile ++ rest))) = '>' :: (b ++ (tagCloseFile ++ rest)) := by
    have h : isWs '>' = false := by decide
    simp [dropWs, List.dropWhile, h]
  simp only [contFile, hq, if_true, hgt, if_pos rfl]
  exact nong_exact (fun _ => true) (matchLit tagCloseFile) (fun c => c ≠ '<')
    (fun c cs2 hc => matchLit_close_none hc) b (tagCloseFile ++ rest) rest
    (fun c hc => ⟨rfl, okBodyChar_ne_lt (hb c hc)⟩) (matchLit_self tagCloseFile rest)

theorem contDelete_at (rest : Str) :
    contDelete ('"' :: '/' :: '>' :: rest) = some rest := by
  have hq : isQuote '"' = true := by decide
  have hdw : dropWs ('/' :: '>' :: rest) = '/' :: '>' :: rest := by
    have h : isWs '/' = false := by decide
    simp [dropWs, List.dropWhile, h]
  simp only [contDelete, hq, if_true, hdw, if_pos rfl]

theorem dropWs_litPathEq (Y : Str) : dropWs (litPathEq ++ Y) = litPathEq ++ Y := by
  have h : isWs 'p' = false := by decide
  simp [litPathEq, dropWs, List.dropWhile, h]

theorem matchFileAt_render (p b rest : Str) (hp : ∀ c ∈ p, okPathChar c)
    (hb : ∀ c ∈ b, okBodyChar c) :
    matchFileAt (renderFile p b ++ rest) = some (p, b, rest) := by
  have hshape : renderFile p b ++ rest
      = tagFile ++ (' ' :: (litPathEq ++ ('"' :: (p ++ ('"' :: '>' :: (b ++ (tagCloseFile ++ rest))))))) := by
    simp [renderFile, List.append_assoc]
  rw [hshape]
  have hnong : nong isDot contFile (p ++ ('"' :: '>' :: (b ++ (tagCloseFile ++ rest))))
      = some (p, (b, rest)) :=
    nong_exact isDot contFile (fun c => isQuote c = false)
      (fun c cs2 hc => contFile_none_of_notQuote hc) p _ (b, rest)
      (fun c hc => ⟨okPathChar_isDot (hp c hc), okPathChar_notQuote (hp c hc)⟩)
      (contFile_at b rest hb)
  have hws : ws1 (' ' :: (litPathEq ++ ('"' :: (p ++ ('"' :: '>' :: (b ++ (tagCloseFile ++ rest)))))))
      = some (litPathEq ++ ('"' :: (p ++ ('"' :: '>' :: (b ++ (tagCloseFile ++ rest)))))) := by
    have : isWs ' ' = true := by decide
    simp only [ws1, this, if_true]
    rw [dropWs_litPathEq]
  have hquote : quoteStep ('"' :: (p ++ ('"' :: '>' :: (b ++ (tagCloseFile ++ rest)))))
      = some (p ++ ('"' :: '>' :: (b ++ (tagCloseFile ++ rest)))) := by
    simp [quoteStep, isQuote]
  simp only [matchFileAt, matchLit_self, Option.some_bind, hws, hquote,
    matchLit_self litPathEq, hnong]

theorem matchDeleteAt_render (p rest : Str) (hp : ∀ c ∈ p, okPathChar c) :
    matchDeleteAt (renderDelete p ++ rest) = some (p, rest) := by
  have hshape : renderDelete p ++ rest
      = tagDelete ++ (' ' :: (litPathEq ++ ('"' :: (p ++ ('"' :: '/' :: '>' :: rest))))) := by
    simp [renderDelete, List.append_assoc]
  rw [hshape]
  have hnong : nong isDot contDelete (p ++ ('"' :: '/' :: '>' :: rest)) = some (p, rest) :=
    nong_exact isDot contDelete (fun c => isQuote c = false)
      (fun c cs2 hc => contDelete_none_of_notQuote hc) p _ rest
      (fun c hc => ⟨okPathChar_isDot (hp c hc), okPathChar_notQuote (hp c hc)⟩)
      (contDelete_at rest)
  have hws : ws1 (' ' :: (litPathEq ++ ('"' :: (p ++ ('"' :: '/' :: '>' :: rest)))))
      = some (litPathEq ++ ('"' :: (p ++ ('"' :: '/' :: '>' :: rest)))) := by
    have : isWs ' ' = true := by decide
    simp only [ws1, this, if_true]
    rw [dropWs_litPathEq]
  have hquote : quoteStep ('"' :: (p ++ ('"' :: '/' :: '>' :: rest)))
      = some (p ++ ('"' :: '/' :: '>' :: rest)) := by
    simp [quoteStep, isQuote]
  simp only [matchDeleteAt, matchLit_self, Option.some_bind, hws, hquote,
    matchLit_self litPathEq, hnong]

theorem scanFile_cons_file (p b D : Str) (hp : ∀ c ∈ p, okPathChar c)
    (hb : ∀ c ∈ b, okBodyChar c) :
    scanFile (renderFile p b ++ D) = (p, b) :: scanFile D :=
  scanFile_some (matchFileAt_render p b D hp hb)

theorem scanDelete_cons_delete (p D : Str) (hp : ∀ c ∈ p, okPathChar c) :
    scanDelete (renderDelete p ++ D) = p :: scanDelete D :=
  scanDelete_some (matchDeleteAt_render p D hp)

theorem scanFile_skip_delete (p D : Str) (hp : ∀ c ∈ p, okPathChar c) :
    scanFile (renderDelete p ++ D) = scanFile D := by
  have hmem : ∀ c ∈ ((['d', 'e', 'l', 'e', 't', 'e', ' ', 'p', 'a', 't', 'h', '=', '"'] : Str)
      ++ (p ++ delTagSuf)), c ≠ '<' := by
    intro c hc
    rcases List.mem_append.mp hc with h1 | h2
    · exact (by decide : ∀ x ∈ (['d', 'e', 'l', 'e', 't', 'e', ' ', 'p', 'a', 't', 'h', '=', '"'] : Str), x ≠ '<') c h1
    · rcases List.mem_append.mp h2 with h3 | h4
      · exact okPathChar_ne_lt (hp c h3)
      · exact (by decide : ∀ x ∈ delTagSuf, x ≠ '<') c h4
  have hsh : renderDelete p ++ D
      = '<' :: (((['d', 'e', 'l', 'e', 't', 'e', ' ', 'p', 'a', 't', 'h', '=', '"'] : Str)
          ++ (p ++ delTagSuf)) ++ D) := by
    simp [renderDelete, tagDelete, litPathEq, delTagSuf, List.cons_append, List.append_assoc]
  have h2 : scanFile (((['d', 'e', 'l', 'e', 't', 'e', ' ', 'p', 'a', 't', 'h', '=', '"'] : Str)
      ++ (p ++ delTagSuf)) ++ D) = scanFile D := scanFile_append_skip hmem
  rw [hsh]
  exact (scanFile_cons_none (matchFileAt_lt_d_none _)).trans h2

theorem scanDelete_skip_file (p b D : Str) (hp : ∀ c ∈ p, okPathChar c)
    (hb : ∀ c ∈ b, okBodyChar c) :
    scanDelete (renderFile p b ++ D) = scanDelete D := by
  have hmem : ∀ c ∈ ((['f', 'i', 'l', 'e', ' ', 'p', 'a', 't', 'h', '=', '"'] : Str)
      ++ (p ++ (midQuoteGt ++ b))), c ≠ '<' := by
    intro c hc
    rcases List.mem_append.mp hc with h1 | h2
    · exact (by decide : ∀ x ∈ (['f', 'i', 'l', 'e', ' ', 'p', 'a', 't', 'h', '=', '"'] : Str), x ≠ '<') c h1
    · rcases List.mem_append.mp h2 with h3 | h4
      · exact okPathChar_ne_lt (hp c h3)
      · rcases List.mem_append.mp h4 with h5 | h6
        · exact (by decide : ∀ x ∈ midQuoteGt, x ≠ '<') c h5
        · exact okBodyChar_ne_lt (hb c h6)
  have hsh : renderFile p b ++ D
      = '<' :: (((['f', 'i', 'l', 'e', ' ', 'p', 'a', 't', 'h', '=', '"'] : Str)
          ++ (p ++ (midQuoteGt ++ b)))
          ++ ('<' :: ((['/', 'f', 'i', 'l', 'e', '>'] : Str) ++ D))) := by
    simp [renderFile, tagFile, litPathEq, midQuoteGt, tagCloseFile,
      List.cons_append, List.append_assoc]
  have h2 : scanDelete (((['f', 'i', 'l', 'e', ' ', 'p', 'a', 't', 'h', '=', '"'] : Str)
      ++ (p ++ (midQuoteGt ++ b))) ++ ('<' :: ((['/', 'f', 'i', 'l', 'e', '>'] : Str) ++ D)))
      = scanDelete ('<' :: ((['/', 'f', 'i', 'l', 'e', '>'] : Str) ++ D)) :=
    scanDelete_append_skip hmem
  have h3 : scanDelete ((['/', 'f', 'i', 'l', 'e', '>'] : Str) ++ D) = scanDelete D :=
    scanDelete_append_skip (by decide)
  rw [hsh]
  exact ((scanDelete_cons_none (matchDeleteAt_lt_f_none _)).trans h2).trans
    ((scanDelete_cons_none (matchDeleteAt_lt_slash_none _)).trans h3)

theorem renderDoc_nil : renderDoc [] = [] := rfl

theorem renderDoc_cons (i : Item) (items : List Item) :
    renderDoc (i :: items) = renderItem i ++ renderDoc items := by
  simp [renderDoc]

theorem renderFile_no_tick {p b : Str} (hp : ∀ c ∈ p, okPathChar c)
    (hb : ∀ c ∈ b, okBodyChar c) : ∀ c ∈ renderFile p b, c ≠ tick := by
  intro c hc
  rw [renderFile_eq] at hc
  simp only [List.mem_append] at hc
  rcases hc with hc | hc | hc | hc | hc
  · exact (by decide : ∀ x ∈ fileTagPre, x ≠ tick) c hc
  · exact okPathChar_ne_tick (hp c hc)
  · exact (by decide : ∀ x ∈ midQuoteGt, x ≠ tick) c hc
  · exact okBodyChar_ne_tick (hb c hc)
  · exact (by decide : ∀ x ∈ tagCloseFile, x ≠ tick) c hc

theorem renderDelete_no_tick {p : Str} (hp : ∀ c ∈ p, okPathChar c) :
    ∀ c ∈ renderDelete p, c ≠ tick := by
  intro c hc
  rw [renderDelete_eq] at hc
  simp only [List.mem_append] at hc
  rcases hc with hc | hc | hc
  · exact (by decide : ∀ x ∈ delTagPre, x ≠ tick) c hc
  · exact okPathChar_ne_tick (hp c hc)
  · exact (by decide : ∀ x ∈ delTagSuf, x ≠ tick) c hc

theorem renderDoc_no_tick : ∀ (items : List Item), (∀ i ∈ items, okItem i) →
    ∀ c ∈ renderDoc items, c ≠ tick := by
  intro items
  induction items with
  | nil => intro _ c hc; simp [renderDoc] at hc
  | cons i t ih =>
    intro h c hc
    rw [renderDoc_cons] at hc
    rcases List.mem_append.mp hc with hc | hc
    · cases i with
      | fileTag p b =>
        have hi := h (Item.fileTag p b) (by simp)
        exact renderFile_no_tick hi.1 hi.2 c hc
      | deleteTag p =>
        exact renderDelete_no_tick (h (Item.deleteTag p) (by simp)) c hc
      | prose s =>
        exact okBodyChar_ne_tick ((h (Item.prose s) (by simp)) c hc)
    · exact ih (fun j hj => h j (by simp [hj])) c hc

theorem stripAllF_id {p0 : Char} {ps : Str} : ∀ {fuel : Nat} {cs : Str},
    (∀ c ∈ cs, c ≠ p0) → stripAllF (p0 :: ps) fuel cs = cs := by
  intro fuel
  induction fuel with
  | zero => intro cs _; rfl
  | succ f ih =>
    intro cs h
    cases cs with
    | nil => rfl
    | cons c rest =>
      have hme : matchExact (p0 :: ps) (c :: rest) = none := by
        simp only [matchExact]
        rw [if_neg (fun he => (h c (by simp)) he.symm)]
      simp only [stripAllF, hme]
      rw [ih (fun d hd => h d (by simp [hd]))]

theorem cleanContent_id {cs : Str} (h : ∀ c ∈ cs, c ≠ tick) : cleanContent cs = cs := by
  have h1 : stripAll fenceXml cs = cs := by
    show stripAllF fenceXml cs.length cs = cs
    exact stripAllF_id h
  rw [cleanContent, h1]
  show stripAllF fence3 cs.length cs = cs
  exact stripAllF_id h

theorem scanFile_renderDoc : ∀ (items : List Item), (∀ i ∈ items, okItem i) →
    scanFile (renderDoc items) = itemWrites items := by
  intro items
  induction items with
  | nil => intro _; rfl
  | cons i t ih =>
    intro h
    rw [renderDoc_cons]
    cases i with
    | fileTag p b =>
      have hi := h (Item.fileTag p b) (by simp)
      simp only [renderItem]
      rw [scanFile_cons_file p b (renderDoc t) hi.1 hi.2,
        ih fun j hj => h j (by simp [hj])]
      rfl
    | deleteTag p =>
      simp only [renderItem]
      rw [scanFile_skip_delete p (renderDoc t) (h (Item.deleteTag p) (by simp))]
      exact ih fun j hj => h j (by simp [hj])
    | prose s =>
      simp only [renderItem]
      rw [scanFile_append_skip fun c hc =>
        okBodyChar_ne_lt ((h (Item.prose s) (by simp)) c hc)]
      exact ih fun j hj => h j (by simp [hj])

theorem scanDelete_renderDoc : ∀ (items : List Item), (∀ i ∈ items, okItem i) →
    scanDelete (renderDoc items) = itemDeletes items := by
  intro items
  induction items with
  | nil => intro _; rfl
  | cons i t ih =>
    intro h
    rw [renderDoc_cons]
    cases i with
    | fileTag p b =>
      have hi := h (Item.fileTag p b) (by simp)
      simp only [renderItem]
      rw [scanDelete_skip_file p b (renderDoc t) hi.1 hi.2]
      exact ih fun j hj => h j (by simp [hj])
    | deleteTag p =>
      simp only [renderItem]
      rw [scanDelete_cons_delete p (renderDoc t) (h (Item.deleteTag p) (by simp)),
        ih fun j hj => h j (by simp [hj])]
      rfl
    | prose s =>
      simp only [renderItem]
      rw [scanDelete_append_skip fun c hc =>
        okBodyChar_ne_lt ((h (Item.prose s) (by simp)) c hc)]
      exact ih fun j hj => h j (by simp [hj])

theorem extract_renderDoc (items : List Item) (h : ∀ i ∈ items, okItem i) :
    extractUpdates (renderDoc items)
      = (itemWrites items).map (fun pb => Update.write pb.1 (jsTrim pb.2))
        ++ (itemDeletes items).map Update.delete := by
  rw [extractUpdates, cleanContent_id (renderDoc_no_tick items h),
    scanFile_renderDoc items h, scanDelete_renderDoc items h]

theorem findVal_setFile_self (l : List (Str × Str)) (p c : Str) :
    findVal p (setFile l p c) = some c := by
  induction l with
  | nil => simp [setFile, findVal]
  | cons hd t ih =>
    obtain ⟨q, d⟩ := hd
    by_cases hq : q = p
    · simp [setFile, hq, findVal]
    · simp [setFile, hq, findVal, ih]

theorem findVal_setFile_ne (l : List (Str × Str)) {p q : Str} (c : Str) (h : q ≠ p) :
    findVal q (setFile l p c) = findVal q l := by
  have hne : ¬(p = q) := fun he => h he.symm
  induction l with
  | nil => simp [setFile, findVal, hne]
  | cons hd t ih =>
    obtain ⟨r, d⟩ := hd
    by_cases hr : r = p
    · subst hr
      simp [setFile, findVal, hne]
    · simp [setFile, hr, findVal, ih]

theorem ne_bakPath (p : Str) : p ≠ bakPath p := by
  intro h
  have h2 := congrArg List.length h
  have h4 : (s2l ".bak").length = 4 := rfl
  rw [bakPath, List.length_append, h4] at h2
  omega

theorem bakPath_ne (p : Str) : bakPath p ≠ p := fun h => ne_bakPath p h.symm

theorem applyAllG_length (backups : Bool) :
    ∀ (us : List Update) (w : World), ((applyAllG backups w us).2).length = us.length := by
  intro us
  induction us with
  | nil => intro w; rfl
  | cons u t ih =>
    intro w
    simp only [applyAllG, List.length_cons]
    rw [ih]

theorem getLast_append_single {α : Type} (a : α) :
    ∀ (l : List α), (l ++ [a]).getLast? = some a := by
  intro l
  induction l with
  | nil => rfl
  | cons x t ih =>
    rw [List.cons_append, List.getLast?_cons]
    simp only [List.getLastD_eq_getLast?, ih]
    rfl

theorem arCount_cons_true (q : Part) (t : List Part) (h : (q.added || q.removed) = true) :
    arCount (q :: t) = arCount t + 1 := by
  simp [arCount, List.filter_cons, h]

theorem arCount_cons_false (q : Part) (t : List Part) (h : (q.added || q.removed) = false) :
    arCount (q :: t) = arCount t := by
  simp [arCount, List.filter_cons, h]

theorem hunkCount_append_hunk (evs : List Ev) (e : Ev) (h : isHunk e = true) :
    hunkCount (evs ++ [e]) = hunkCount evs + 1 := by
  simp [hunkCount, List.filter_append, h]

theorem renderFold_spec (parts : List Part) :
    ∀ (evs : List Ev) (count : Nat), count ≤ 51 →
    (parts.foldl renderStep (evs, count)).2 = min (count + arCount parts) 51
    ∧ hunkCount (parts.foldl renderStep (evs, count)).1 + count
        = hunkCount evs + (parts.foldl renderStep (evs, count)).2 := by
  induction parts with
  | nil =>
    intro evs count h
    constructor
    · simp [arCount, Nat.min_eq_left h]
    · simp
  | cons q t ih =>
    intro evs count h
    rw [List.foldl_cons]
    by_cases h50 : 50 < count
    · have hstep : renderStep (evs, count) q = (evs, count) := by
        simp [renderStep, h50]
      rw [hstep]
      obtain ⟨ih1, ih2⟩ := ih evs count h
      refine ⟨?_, ih2⟩
      rw [ih1]
      rcases hbool : (q.added || q.removed) with _ | _
      · rw [arCount_cons_false q t hbool]
      · rw [arCount_cons_true q t hbool]
        have hc : count = 51 := by omega
        subst hc
        rw [Nat.min_eq_right (by omega), Nat.min_eq_right (by omega)]
    · rcases hadd : q.added with _ | _
      · rcases hrem : q.removed with _ | _
        · have hstep : renderStep (evs, count) q = (evs, count) := by
            simp [renderStep, h50, hadd, hrem]
          rw [hstep]
          obtain ⟨ih1, ih2⟩ := ih evs count h
          rw [arCount_cons_false q t (by simp [hadd, hrem])]
          exact ⟨ih1, ih2⟩
        · have hstep : renderStep (evs, count) q
              = (evs ++ [Ev.removeHunk q.value], count + 1) := by
            simp [renderStep, h50, hadd, hrem]
          rw [hstep]
          obtain ⟨ih1, ih2⟩ := ih (evs ++ [Ev.removeHunk q.value]) (count + 1) (by omega)
          constructor
          · rw [ih1, arCount_cons_true q t (by simp [hadd, hrem])]
            have harith : count + 1 + arCount t = count + (arCount t + 1) := by omega
            rw [harith]
          · rw [hunkCount_append_hunk evs _ (by simp [isHunk])] at ih2
            omega
      · have hstep : renderStep (evs, count) q
            = (evs ++ [Ev.addHunk q.value], count + 1) := by
          simp [renderStep, h50, hadd]
        rw [hstep]
        obtain ⟨ih1, ih2⟩ := ih (evs ++ [Ev.addHunk q.value]) (count + 1) (by omega)
        constructor
        · rw [ih1, arCount_cons_true q t (by simp [hadd])]
          have harith : count + 1 + arCount t = count + (arCount t + 1) := by omega
          rw [harith]
        · rw [hunkCount_append_hunk evs _ (by simp [isHunk])] at ih2
          omega

theorem renderFold_no_trunc (parts : List Part) :
    ∀ (evs : List Ev) (count : Nat), Ev.truncated ∉ evs →
    Ev.truncated ∉ (parts.foldl renderStep (evs, count)).1 := by
  induction parts with
  | nil => intro evs count h; exact h
  | cons q t ih =>
    intro evs count h
    rw [List.foldl_cons]
    rcases hstep : renderStep (evs, count) q with ⟨evs2, count2⟩
    have h2 : Ev.truncated ∉ evs2 := by
      simp only [renderStep] at hstep
      split at hstep
      · cases hstep; exact h
      · split at hstep
        · cases hstep; simp [h]
        · split at hstep
          · cases hstep; simp [h]
          · cases hstep; exact h
    exact ih evs2 count2 h2

theorem renderParts_spec (parts : List Part) :
    hunkCount (renderParts parts) = min (arCount parts) 51
    ∧ (Ev.truncated ∈ renderParts parts ↔ 51 ≤ arCount parts) := by
  obtain ⟨h1, h2⟩ := renderFold_spec parts [] 0 (by omega)
  have hnt := renderFold_no_trunc parts [] 0 (by simp)
  have hA : hunkCount (parts.foldl renderStep ([], 0)).1 = min (arCount parts) 51 := by
    simp only [hunkCount, List.filter_nil, List.length_nil, Nat.add_zero, Nat.zero_add] at h2
    rw [hunkCount, h2, h1, Nat.zero_add]
  constructor
  · rw [renderParts, hunkCount, List.filter_append]
    have hite : (if 50 < (parts.foldl renderStep ([], 0)).2 then [Ev.truncated] else []).filter isHunk
        = [] := by
      split <;> simp [isHunk]
    rw [hite, List.append_nil]
    exact hA
  · rw [renderParts]
    constructor
    · intro hmem
      rcases List.mem_append.mp hmem with hm | hm
      · exact absurd hm hnt
      · by_cases h50 : 50 < (parts.foldl renderStep ([], 0)).2
        · rw [h1, Nat.zero_add] at h50
          rcases Nat.le_total (arCount parts) 51 with hle | hle
          · rw [Nat.min_eq_left hle] at h50
            omega
          · omega
        · rw [if_neg h50] at hm
          simp at hm
    · intro har
      apply List.mem_append.mpr
      right
      have h50 : 50 < (parts.foldl renderStep ([], 0)).2 := by
        rw [h1, Nat.zero_add, Nat.min_eq_right (by omega)]
        omega
      rw [if_pos h50]
      simp

theorem applyWrite_nobak (w : World) (p c : Str)
    (hM : findVal p w.failMkdir = none) (hW : findVal p w.failWrite = none) :
    applyUpdate false w (Update.write p c)
      = ({ w with files := setFile w.files p c }, [Ev.wrote p]) := by
  have hmk : fsMkdirp w p = Except.ok w := by simp [fsMkdirp, hM]
  have hwr : fsWrite w p c = Except.ok { w with files := setFile w.files p c } := by
    simp [fsWrite, hW]
  simp [applyUpdate, hmk, hwr]

theorem applyWrite_bak_new (w : World) (p c : Str)
    (hM : findVal p w.failMkdir = none) (hW : findVal p w.failWrite = none)
    (habs : fsRead w p = none) :
    applyUpdate true w (Update.write p c)
      = ({ w with files := setFile w.files p c }, [Ev.wrote p]) := by
  have hmk : fsMkdirp w p = Except.ok w := by simp [fsMkdirp, hM]
  have hcp : fsCopy w p (bakPath p) = Except.error enoent := by simp [fsCopy, habs]
  have hwr : fsWrite w p c = Except.ok { w with files := setFile w.files p c } := by
    simp [fsWrite, hW]
  simp [applyUpdate, hmk, hcp, hwr]

theorem applyWrite_bak_exist (w : World) (p c oldC : Str)
    (hM : findVal p w.failMkdir = none) (hW : findVal p w.failWrite = none)
    (hex : fsRead w p = some oldC) (hC : findVal (bakPath p) w.failCopy = none) :
    applyUpdate true w (Update.write p c)
      = ({ w with files := setFile (setFile w.files (bakPath p) oldC) p c },
         [Ev.backupSaved, Ev.wrote p]) := by
  have hmk : fsMkdirp w p = Except.ok w := by simp [fsMkdirp, hM]
  have hcp : fsCopy w p (bakPath p)
      = Except.ok { w with files := setFile w.files (bakPath p) oldC } := by
    simp [fsCopy, hex, hC]
  have hwr : fsWrite { w with files := setFile w.files (bakPath p) oldC } p c
      = Except.ok { w with files := setFile (setFile w.files (bakPath p) oldC) p c } := by
    simp [fsWrite, hW]
  simp [applyUpdate, hmk, hcp, hwr]

/-- Claim C1: if the operator declines the confirmation prompt (`some false`)
or the confirmation mechanism itself fails or is cancelled (`none`), then no
filesystem mutation has occurred: the final world equals the initial world,
so no file was written, deleted, or backed up; in particular the extraction
and preview phases performed before the prompt caused no filesystem
writes. -/
theorem c1_abort_no_mutation (clip : Str) (backups : Bool) (conf : Option Bool)
    (w : World) (h : conf = some false ∨ conf = none) :
    (runApply clip backups conf w).1 = w := by
  rcases h with rfl | rfl <;>
    (simp only [runApply]; split <;> rfl)

theorem c1_witness :
    (runApply (s2l "<delete path=\"x\"/>") true (some false) w0).1 = w0 :=
  c1_abort_no_mutation (s2l "<delete path=\"x\"/>") true (some false) w0 (Or.inl rfl)

/-- Claim C2: for any document interleaving N well-formed write tags and M
well-formed delete tags (with arbitrary inert prose in between), extraction
yields exactly the N write directives (contents trimmed) in their document
order, followed by exactly the M delete directives in their document order —
writes always precede deletes regardless of the interleaving. -/
theorem c2_writes_then_deletes (items : List Item) (h : ∀ i ∈ items, okItem i) :
    extractUpdates (renderDoc items)
      = (itemWrites items).map (fun pb => Update.write pb.1 (jsTrim pb.2))
        ++ (itemDeletes items).map Update.delete :=
  extract_renderDoc items h

theorem c2_witness :
    extractUpdates (renderDoc [Item.deleteTag (s2l "b.txt"), Item.prose (s2l "some prose"),
        Item.fileTag (s2l "a.txt") (s2l " hi "), Item.deleteTag (s2l "c.txt"),
        Item.fileTag (s2l "d.txt") (s2l "x")])
      = [Update.write (s2l "a.txt") (s2l "hi"), Update.write (s2l "d.txt") (s2l "x"),
         Update.delete (s2l "b.txt"), Update.delete (s2l "c.txt")] :=
  (c2_writes_then_deletes [Item.deleteTag (s2l "b.txt"), Item.prose (s2l "some prose"),
      Item.fileTag (s2l "a.txt") (s2l " hi "), Item.deleteTag (s2l "c.txt"),
      Item.fileTag (s2l "d.txt") (s2l "x")] (by decide)).trans (by decide)

/-- Claim C3: with the backup policy enabled, applying a write directive to
a path that exists with prior content `oldC` leaves the `.bak` sibling
holding `oldC` and the original path holding the new content — overwriting
any prior backup at the sibling location (the initial world `w` is
arbitrary, so it may already hold a stale backup there). -/
theorem c3_backup_overwrite (w : World) (p oldC newC : Str)
    (hex : fsRead w p = some oldC)
    (hM : findVal p w.failMkdir = none)
    (hC : findVal (bakPath p) w.failCopy = none)
    (hW : findVal p w.failWrite = none) :
    fsRead (applyUpdate true w (Update.write p newC)).1 p = some newC
    ∧ fsRead (applyUpdate true w (Update.write p newC)).1 (bakPath p) = some oldC := by
  rw [applyWrite_bak_exist w p newC oldC hM hW hex hC]
  constructor
  · simp only [fsRead]
    exact findVal_setFile_self _ _ _
  · simp only [fsRead]
    rw [findVal_setFile_ne _ _ (bakPath_ne p)]
    exact findVal_setFile_self _ _ _

theorem c3_witness :
    fsRead (applyUpdate true
        ⟨[(s2l "t.txt", s2l "old"), (s2l "t.txt.bak", s2l "stale")], [], [], [], []⟩
        (Update.write (s2l "t.txt") (s2l "new"))).1 (s2l "t.txt") = some (s2l "new")
    ∧ fsRead (applyUpdate true
        ⟨[(s2l "t.txt", s2l "old"), (s2l "t.txt.bak", s2l "stale")], [], [], [], []⟩
        (Update.write (s2l "t.txt") (s2l "new"))).1 (bakPath (s2l "t.txt")) = some (s2l "old") :=
  c3_backup_overwrite ⟨[(s2l "t.txt", s2l "old"), (s2l "t.txt.bak", s2l "stale")], [], [], [], []⟩
    (s2l "t.txt") (s2l "old") (s2l "new") (by decide) (by decide) (by decide) (by decide)

/-- Claim C5 (counterexample): deleting a nonexistent path on the
v1.0.6/v1.0.1 engine produces NO output events at all — in particular no
`skipped` outcome is reported, contrary to the claim (only the v1.0.0
delete branch, `applyDelete100`, reported one). The filesystem is
unchanged. -/
theorem c5_counterexample :
    (applyUpdate true w0 (Update.delete (s2l "b.txt"))).2 = []
    ∧ (applyUpdate true w0 (Update.delete (s2l "b.txt"))).1 = w0 :=
  ⟨by decide, by decide⟩

/-- Claim C5 (amended): deleting a nonexistent path leaves the filesystem
unchanged and is a success case (no error is raised), but it is silently
skipped: the current engine emits no events for the directive, rather than
reporting a `skipped` outcome. -/
theorem c5_amended_missing_delete_silent (backups : Bool) (w : World) (p : Str)
    (h : fsRead w p = none) :
    applyUpdate backups w (Update.delete p) = (w, []) := by
  have hcopy : fsCopy w p (bakPath p) = Except.error enoent := by
    simp [fsCopy, h]
  have hunl : fsUnlink w p = Except.error enoent := by
    simp [fsUnlink, h]
  cases backups <;> simp [applyUpdate, hcopy, hunl]

theorem c5_witness :
    applyUpdate true ⟨[(s2l "a", s2l "x")], [], [], [], []⟩ (Update.delete (s2l "b.txt"))
      = (⟨[(s2l "a", s2l "x")], [], [], [], []⟩, []) :=
  c5_amended_missing_delete_silent true ⟨[(s2l "a", s2l "x")], [], [], [], []⟩
    (s2l "b.txt") (by decide)

theorem applyDelete100_reports_skipped (backups : Bool) (w : World) (p : Str)
    (h : fsRead w p = none) :
    applyDelete100 backups w p = (w, [Ev.skippedDelete p]) := by
  simp [applyDelete100, h]

/-- Claim C8: applying the same write directive twice is idempotent — the
target holds the content after each application — and with backups enabled
the backup sibling after the second application holds exactly the content
written by the first application. -/
theorem c8_write_idempotent (backups : Bool) (w : World) (p c : Str)
    (hM : findVal p w.failMkdir = none)
    (hW : findVal p w.failWrite = none)
    (hC : findVal (bakPath p) w.failCopy = none) :
    fsRead (applyUpdate backups w (Update.write p c)).1 p = some c
    ∧ fsRead (applyUpdate backups
        (applyUpdate backups w (Update.write p c)).1 (Update.write p c)).1 p = some c
    ∧ (backups = true →
        fsRead (applyUpdate backups
          (applyUpdate backups w (Update.write p c)).1 (Update.write p c)).1 (bakPath p)
          = some c) := by
  cases backups with
  | false =>
    rw [applyWrite_nobak w p c hM hW]
    rw [applyWrite_nobak { w with files := setFile w.files p c } p c hM hW]
    refine ⟨?_, ?_, ?_⟩
    · simp only [fsRead]
      exact findVal_setFile_self _ _ _
    · simp only [fsRead]
      exact findVal_setFile_self _ _ _
    · intro hbk
      exact absurd hbk (by simp)
  | true =>
    rcases hread : fsRead w p with _ | oldC
    · rw [applyWrite_bak_new w p c hM hW hread]
      have hex1 : fsRead ({ w with files := setFile w.files p c } : World) p = some c := by
        simp only [fsRead]
        exact findVal_setFile_self _ _ _
      rw [applyWrite_bak_exist { w with files := setFile w.files p c } p c c hM hW hex1 hC]
      refine ⟨hex1, ?_, ?_⟩
      · simp only [fsRead]
        exact findVal_setFile_self _ _ _
      · intro _
        simp only [fsRead]
        rw [findVal_setFile_ne _ _ (bakPath_ne p)]
        exact findVal_setFile_self _ _ _
    · rw [applyWrite_bak_exist w p c oldC hM hW hread hC]
      have hex1 : fsRead ({ w with files := setFile (setFile w.files (bakPath p) oldC) p c } : World) p
          = some c := by
        simp only [fsRead]
        exact findVal_setFile_self _ _ _
      rw [applyWrite_bak_exist
        { w with files := setFile (setFile w.files (bakPath p) oldC) p c } p c c hM hW hex1 hC]
      refine ⟨hex1, ?_, ?_⟩
      · simp only [fsRead]
        exact findVal_setFile_self _ _ _
      · intro _
        simp only [fsRead]
        rw [findVal_setFile_ne _ _ (bakPath_ne p)]
        exact findVal_setFile_self _ _ _

theorem c8_witness :
    fsRead (applyUpdate true w0 (Update.write (s2l "i.txt") (s2l "C"))).1 (s2l "i.txt")
      = some (s2l "C")
    ∧ fsRead (applyUpdate true
        (applyUpdate true w0 (Update.write (s2l "i.txt") (s2l "C"))).1
        (Update.write (s2l "i.txt") (s2l "C"))).1 (s2l "i.txt") = some (s2l "C")
    ∧ (true = true →
        fsRead (applyUpdate true
          (applyUpdate true w0 (Update.write (s2l "i.txt") (s2l "C"))).1
          (Update.write (s2l "i.txt") (s2l "C"))).1 (bakPath (s2l "i.txt"))
          = some (s2l "C")) :=
  c8_write_idempotent true w0 (s2l "i.txt") (s2l "C") (by decide) (by decide) (by decide)

/-- Claim C9 (counterexample): the path capture `(.*?)` matches the empty
string, so extraction DOES produce directives with an empty path — the
claim that no directive with an empty path ever appears is false. -/
theorem c9_counterexample :
    extractUpdates (s2l "<file path=\"\">x</file>") = [Update.write [] (s2l "x")]
    ∧ extractUpdates (s2l "<delete path=\"\"/>") = [Update.delete []] :=
  ⟨by decide, by decide⟩

/-- Claim C9 (amended): extraction performs no path validation at all — in
particular it does not require a non-empty path: a write tag with an empty
quoted path is extracted as a directive whose path is the empty string. -/
theorem c9_amended_no_path_validation (b : Str) (hb : ∀ c ∈ b, okBodyChar c) :
    extractUpdates (renderFile [] b) = [Update.write [] (jsTrim b)] := by
  have h := extract_renderDoc [Item.fileTag [] b]
    (by intro i hi; simp at hi; subst hi; exact ⟨by simp, hb⟩)
  have hdoc : renderDoc [Item.fileTag [] b] = renderFile [] b := by
    simp [renderDoc, renderItem]
  rw [hdoc] at h
  simpa [itemWrites, itemDeletes] using h

theorem c9_witness :
    extractUpdates (renderFile [] (s2l "x")) = [Update.write [] (jsTrim (s2l "x"))] :=
  c9_amended_no_path_validation (s2l "x") (by decide)

/-- Claim C10: for a write directive whose target exists with empty
content, the preview neither classifies it as a new file nor renders any
diff output — the diff branch is guarded by the truthiness of the old
content, so only the path banner is printed. -/
theorem c10_empty_existing_no_preview (w : World) (p c : Str)
    (h : fsRead w p = some []) :
    previewUpdate w (Update.write p c) = [Ev.header p] := by
  simp [previewUpdate, h]

theorem c10_witness :
    previewUpdate ⟨[(s2l "e.txt", [])], [], [], [], []⟩
        (Update.write (s2l "e.txt") (s2l "x"))
      = [Ev.header (s2l "e.txt")] :=
  c10_empty_existing_no_preview ⟨[(s2l "e.txt", [])], [], [], [], []⟩
    (s2l "e.txt") (s2l "x") (by decide)

theorem applyWrite_fail_reported (backups : Bool) (w : World) (p c m : Str)
    (hM : findVal p w.failMkdir = none) (hWm : findVal p w.failWrite = some m) :
    Ev.errorEv p m ∈ (applyUpdate backups w (Update.write p c)).2 := by
  have hmk : fsMkdirp w p = Except.ok w := by simp [fsMkdirp, hM]
  cases backups with
  | false =>
    have hwr : fsWrite w p c = Except.error ⟨s2l "EACCES", m⟩ := by simp [fsWrite, hWm]
    simp [applyUpdate, hmk, hwr]
  | true =>
    rcases hcp : fsCopy w p (bakPath p) with e | w2
    · have hwr : fsWrite w p c = Except.error ⟨s2l "EACCES", m⟩ := by simp [fsWrite, hWm]
      simp [applyUpdate, hmk, hcp, hwr]
    · have hfw : w2.failWrite = w.failWrite := by
        simp only [fsCopy] at hcp
        rcases hread : fsRead w p with _ | o <;> rw [hread] at hcp
        · cases hcp
        · rcases hfc : findVal (bakPath p) w.failCopy with _ | mm <;> rw [hfc] at hcp
          · cases hcp
            rfl
          · cases hcp
      have hwr : fsWrite w2 p c = Except.error ⟨s2l "EACCES", m⟩ := by
        simp [fsWrite, hfw, hWm]
      simp [applyUpdate, hmk, hcp, hwr]

/-- Claim C4 (counterexample): a permission failure while deleting an
existing file is swallowed by the empty inner catch of the delete branch —
the unlink throws a non-`ENOENT` error, yet the directive produces no
output events at all, so the failure is NOT reported with its path and
cause, contrary to the claim. -/
theorem c4_counterexample :
    fsUnlink ⟨[(s2l "f.txt", s2l "x")], [], [], [],
        [(s2l "f.txt", s2l "EPERM: operation not permitted")]⟩ (s2l "f.txt")
      = Except.error ⟨s2l "EPERM", s2l "EPERM: operation not permitted"⟩
    ∧ applyUpdate false ⟨[(s2l "f.txt", s2l "x")], [], [], [],
        [(s2l "f.txt", s2l "EPERM: operation not permitted")]⟩
        (Update.delete (s2l "f.txt"))
      = (⟨[(s2l "f.txt", s2l "x")], [], [], [],
          [(s2l "f.txt", s2l "EPERM: operation not permitted")]⟩, []) :=
  ⟨by rfl, by decide⟩

/-- Claim C4 (amended): every per-directive failure is caught and never
stops the loop — the apply loop visits every directive (one event group per
directive) and the run always completes, ending with the terminal summary;
write-directive failures are reported with the offending path and the
underlying cause, but delete-directive failures are swallowed silently
(see the counterexample). -/
theorem c4_amended_failure_isolation (backups : Bool) (w : World) (p c m : Str)
    (us : List Update) (clip : Str)
    (hM : findVal p w.failMkdir = none) (hWm : findVal p w.failWrite = some m)
    (hclip : extractUpdates clip ≠ []) :
    Ev.errorEv p m ∈ (applyUpdate backups w (Update.write p c)).2
    ∧ ((applyAllG backups w (Update.write p c :: us)).2).length = us.length + 1
    ∧ ((runApply clip backups (some true) w).2).getLast? = some Ev.done := by
  refine ⟨applyWrite_fail_reported backups w p c m hM hWm, ?_, ?_⟩
  · simpa using applyAllG_length backups (Update.write p c :: us) w
  · simp only [runApply]
    rw [if_neg hclip]
    exact getLast_append_single Ev.done _

theorem c4_witness :
    Ev.errorEv (s2l "w.txt") (s2l "EACCES: permission denied")
      ∈ (applyUpdate false
          ⟨[], [], [], [(s2l "w.txt", s2l "EACCES: permission denied")], []⟩
          (Update.write (s2l "w.txt") (s2l "x"))).2
    ∧ ((applyAllG false ⟨[], [], [], [(s2l "w.txt", s2l "EACCES: permission denied")], []⟩
        (Update.write (s2l "w.txt") (s2l "x") :: [Update.delete (s2l "z")])).2).length
        = [Update.delete (s2l "z")].length + 1
    ∧ ((runApply (s2l "<delete path=\"q\"/>") false (some true)
        ⟨[], [], [], [(s2l "w.txt", s2l "EACCES: permission denied")], []⟩).2).getLast?
        = some Ev.done :=
  c4_amended_failure_isolation false
    ⟨[], [], [], [(s2l "w.txt", s2l "EACCES: permission denied")], []⟩
    (s2l "w.txt") (s2l "x") (s2l "EACCES: permission denied")
    [Update.delete (s2l "z")] (s2l "<delete path=\"q\"/>")
    (by decide) (by decide) (by decide)

/-- Claim C6 (counterexample): markdown fence sequences inside a tag body
are NOT preserved verbatim — the pre-scan cleaning strips every ``` in the
whole clipboard text, including inside bodies.  For the input
`<file path="a">x```y</file>` the verbatim body between the tags is
`x```y` (already trimmed), but extraction captures `xy`, and after a
confirmed apply the file on disk reads `xy`, not `x```y`. -/
theorem c6_counterexample :
    extractUpdates (s2l "<file path=\"a\">x```y</file>")
      = [Update.write (s2l "a") (s2l "xy")]
    ∧ fsRead ((runApply (s2l "<file path=\"a\">x```y</file>") false (some true) w0).1)
        (s2l "a") = some (s2l "xy")
    ∧ jsTrim (s2l "x```y") = s2l "x```y"
    ∧ s2l "xy" ≠ s2l "x```y" :=
  ⟨by decide, by decide, by decide, by decide⟩

/-- Claim C6 (amended): for a write directive rendered from a path and a
fence-free body, applying through a confirmed run to a world where the
target does not exist leaves the target holding exactly the captured
content — the body after leading/trailing whitespace trimming at extraction
time.  (When the body contains markdown fence sequences they are stripped
before scanning, so the body is preserved verbatim only up to fence
removal and trimming.) -/
theorem c6_amended_write_roundtrip (p b : Str) (backups : Bool) (w : World)
    (hp : ∀ c ∈ p, okPathChar c) (hb : ∀ c ∈ b, okBodyChar c)
    (habs : fsRead w p = none)
    (hM : findVal p w.failMkdir = none) (hW : findVal p w.failWrite = none) :
    fsRead ((runApply (renderFile p b) backups (some true) w).1) p = some (jsTrim b) := by
  have hext : extractUpdates (renderFile p b) = [Update.write p (jsTrim b)] := by
    have h := extract_renderDoc [Item.fileTag p b]
      (by intro i hi; simp at hi; subst hi; exact ⟨hp, hb⟩)
    have hdoc : renderDoc [Item.fileTag p b] = renderFile p b := by
      simp [renderDoc, renderItem]
    rw [hdoc] at h
    simpa [itemWrites, itemDeletes] using h
  have happly : (applyUpdate backups w (Update.write p (jsTrim b))).1
      = { w with files := setFile w.files p (jsTrim b) } := by
    cases backups with
    | false => rw [applyWrite_nobak w p (jsTrim b) hM hW]
    | true => rw [applyWrite_bak_new w p (jsTrim b) hM hW habs]
  have hfst : (runApply (renderFile p b) backups (some true) w).1
      = (applyUpdate backups w (Update.write p (jsTrim b))).1 := by
    simp only [runApply, hext]
    rw [if_neg (by simp)]
    simp [applyAllG]
  rw [hfst, happly]
  simp only [fsRead]
  exact findVal_setFile_self _ _ _

theorem c6_witness :
    fsRead ((runApply (renderFile (s2l "out.txt") (s2l "  hello  ")) true (some true) w0).1)
        (s2l "out.txt") = some (jsTrim (s2l "  hello  ")) :=
  c6_amended_write_roundtrip (s2l "out.txt") (s2l "  hello  ") true w0
    (by decide) (by decide) (by decide) (by decide) (by decide)

set_option maxRecDepth 100000 in
/-- Claim C7 (counterexample): the preview's hunk bound is `count > 50`,
checked before rendering, so the 51st added/removed hunk is still rendered:
on contents whose line diff has 52 added/removed hunks, 51 hunks are
rendered — more than the claimed bound of 50 — together with the
truncation marker. -/
theorem c7_counterexample :
    hunkCount (previewUpdate
        ⟨[(s2l "f.txt", (List.replicate 26 (s2l "a\nu\n")).flatten)], [], [], [], []⟩
        (Update.write (s2l "f.txt") ((List.replicate 26 (s2l "b\nu\n")).flatten))) = 51
    ∧ arCount (diffLines ((List.replicate 26 (s2l "a\nu\n")).flatten)
        ((List.replicate 26 (s2l "b\nu\n")).flatten)) = 52
    ∧ Ev.truncated ∈ previewUpdate
        ⟨[(s2l "f.txt", (List.replicate 26 (s2l "a\nu\n")).flatten)], [], [], [], []⟩
        (Update.write (s2l "f.txt") ((List.replicate 26 (s2l "b\nu\n")).flatten)) :=
  ⟨by decide, by decide, by decide⟩

/-- Claim C7 (amended): for every pair of old and new contents, the diff
preview renders exactly `min (number of added+removed hunks) 51` hunks —
at most 51, not 50 — and the truncation marker is emitted exactly when the
diff has at least 51 added/removed hunks; hunks beyond the 51st are
suppressed. -/
theorem c7_amended_render_bound (oldC newC : Str) :
    hunkCount (renderDiff oldC newC) = min (arCount (diffLines oldC newC)) 51
    ∧ (Ev.truncated ∈ renderDiff oldC newC ↔ 51 ≤ arCount (diffLines oldC newC)) :=
  renderParts_spec (diffLines oldC newC)

end Aidx
